import Mathlib

/-!
Verification of the Monte Carlo dropout uncertainty estimator of
`chapter10/fashionMNIST_dropout_for_detection.ipynb`.

The notebook's numeric core is embedded shallowly over `ℚ` (exact
rational arithmetic in place of floating point):

* `uncertainty` — cell 22's reduction of an (L, C) prediction matrix to a
  scalar dispersion score;
* `predictions_matrix` — cell 20's sampling loop filling an (L, N, C)
  prediction tensor from successive stochastic-predictor invocations,
  together with `numPredictCalls`, the number of predictor invocations
  that loop performs per batch;
* `uncertainty_results` — cell 24's per-image score sequence;
* `num_images` / `x_images` — cells 16 and 18, which re-read the batch
  size from the adversarial generator's actual output and re-slice the
  clean batch to match.
-/

open Finset

/-- Cell 22 of the notebook:
`np.sum(np.square(predictions)) / predictions.shape[0]
 - np.sum(np.square(np.mean(predictions, axis=0)))`
for an (L, C) array `predictions`: the sum of the squares of all entries
divided by the number of rows, minus the sum of the squares of the
column means. -/
def uncertainty {L C : ℕ} (predictions : Fin L → Fin C → ℚ) : ℚ :=
  (∑ l, ∑ c, (predictions l c) ^ 2) / L
    - ∑ c, ((∑ l, predictions l c) / L) ^ 2

/-- Cell 20 of the notebook: `for i in range(L): predictions_matrix[i] = model.predict(x_images)`.
Row `l` of the (L, N, C) tensor holds the stochastic predictor's output
on its `l`-th invocation; the predictor is an oracle `predict` giving the
(N, C) probability matrix returned by each successive call. -/
def predictions_matrix (L : ℕ) {N C : ℕ} (predict : ℕ → Fin N → Fin C → ℚ) :
    Fin L → Fin N → Fin C → ℚ :=
  fun l => predict l.val

/-- The cell-20 loop body invokes the stochastic predictor once per batch
on each iteration of `for i in range(L)`, unconditionally: the number of
predictor invocations per batch is the length of `range(L)`. -/
def numPredictCalls (L : ℕ) : ℕ :=
  (List.range L).length

/-- Cell 24 of the notebook:
`uncertainty_results = np.zeros((num_images))` followed by
`for i in range(num_images): uncertainty_results[i] = uncertainty(predictions_matrix[:,i])`:
the sequence whose `i`-th entry is `uncertainty` applied to the (L, C)
slice of the prediction tensor at image `i`. -/
def uncertainty_results {L N C : ℕ} (M : Fin L → Fin N → Fin C → ℚ) :
    List ℚ :=
  (List.finRange N).map fun i => uncertainty fun l => M l i

/-- Cell 16 of the notebook: `num_images = x_images_adv.shape[0]` — the
batch count is re-read from the adversarial generator's actual output. -/
def num_images {α : Type} (x_images_adv : List α) : ℕ :=
  x_images_adv.length

/-- Cell 18 of the notebook: `x_images = test_images[:num_images]` — the
clean batch is re-sliced to the re-read count. -/
def x_images {α : Type} (test_images x_images_adv : List α) : List α :=
  test_images.take (num_images x_images_adv)

/-! ### Helper lemmas: the variance identity for the reduction -/

/-- Mean of squares minus square of the mean equals the mean of the
squared deviations from the mean (population-variance identity). -/
lemma sum_sq_div_sub_sq_mean {n : ℕ} (hn : (n : ℚ) ≠ 0) (x : Fin n → ℚ) :
    (∑ l, x l ^ 2) / n - ((∑ l, x l) / n) ^ 2
      = (∑ l, (x l - (∑ j, x j) / n) ^ 2) / n := by
  have expand : ∀ l : Fin n, (x l - (∑ j, x j) / n) ^ 2
      = x l ^ 2 - 2 * ((∑ j, x j) / n) * x l + ((∑ j, x j) / n) ^ 2 := by
    intro l; ring
  rw [Finset.sum_congr rfl fun l _ => expand l]
  rw [Finset.sum_add_distrib, Finset.sum_sub_distrib, ← Finset.mul_sum,
    Finset.sum_const, Finset.card_univ, Fintype.card_fin, nsmul_eq_mul]
  field_simp
  ring

/-- `uncertainty` is the sum over classes of the population variance of
that class's probability across the L rows. -/
lemma uncertainty_eq_sum_colVar {L C : ℕ} (hL : (L : ℚ) ≠ 0)
    (P : Fin L → Fin C → ℚ) :
    uncertainty P = ∑ c, (∑ l, (P l c - (∑ j, P j c) / L) ^ 2) / L := by
  unfold uncertainty
  rw [Finset.sum_comm, Finset.sum_div, ← Finset.sum_sub_distrib]
  exact Finset.sum_congr rfl fun c _ =>
    sum_sq_div_sub_sq_mean hL fun l => P l c

/-- Each column's population variance is non-negative. -/
lemma colVar_nonneg {L : ℕ} (x : Fin L → ℚ) :
    0 ≤ (∑ l, (x l - (∑ j, x j) / L) ^ 2) / L := by
  apply div_nonneg
  · exact Finset.sum_nonneg fun l _ => sq_nonneg _
  · positivity

lemma uncertainty_nonneg {L C : ℕ} (hL : (L : ℚ) ≠ 0)
    (P : Fin L → Fin C → ℚ) : 0 ≤ uncertainty P := by
  rw [uncertainty_eq_sum_colVar hL]
  exact Finset.sum_nonneg fun c _ => colVar_nonneg fun l => P l c

/-- With at least one row, the reduction vanishes exactly when all rows
coincide. -/
lemma uncertainty_eq_zero_iff {L C : ℕ} (hL : (L : ℚ) ≠ 0)
    (P : Fin L → Fin C → ℚ) :
    uncertainty P = 0 ↔ ∀ l m : Fin L, P l = P m := by
  have hLnat : L ≠ 0 := by exact_mod_cast hL
  have hLpos : 0 < L := Nat.pos_of_ne_zero hLnat
  rw [uncertainty_eq_sum_colVar hL]
  constructor
  · intro h l m
    have hterm := (Finset.sum_eq_zero_iff_of_nonneg
      fun c _ => colVar_nonneg fun l => P l c).mp h
    funext c
    have hc := hterm c (Finset.mem_univ c)
    have hnum : (∑ j, (P j c - (∑ j, P j c) / L) ^ 2) = 0 := by
      rcases (div_eq_zero_iff.mp hc) with h0 | h0
      · exact h0
      · exact absurd h0 hL
    have hsq := (Finset.sum_eq_zero_iff_of_nonneg
      fun j _ => sq_nonneg (P j c - (∑ j, P j c) / L)).mp hnum
    have hval : ∀ j : Fin L, P j c = (∑ j, P j c) / L := by
      intro j
      have := hsq j (Finset.mem_univ j)
      have := (pow_eq_zero_iff (by norm_num : (2 : ℕ) ≠ 0)).mp this
      linarith [sub_eq_zero.mp this]
    rw [hval l, hval m]
  · intro h
    apply Finset.sum_eq_zero
    intro c _
    set l0 : Fin L := ⟨0, hLpos⟩
    have hrow : ∀ j : Fin L, P j c = P l0 c := fun j => congrFun (h j l0) c
    have hmean : (∑ j, P j c) / L = P l0 c := by
      rw [Finset.sum_congr rfl fun j _ => hrow j, Finset.sum_const,
        Finset.card_univ, Fintype.card_fin, nsmul_eq_mul]
      field_simp
    rw [Finset.sum_congr rfl fun j _ => by rw [hrow j, hmean]]
    simp

/-- A matrix with all rows equal has zero `uncertainty` (any L, since for
L = 0 the empty sums and division by zero both yield 0). -/
lemma uncertainty_const {L C : ℕ} (v : Fin C → ℚ) :
    uncertainty (L := L) (fun _ => v) = 0 := by
  rcases Nat.eq_zero_or_pos L with h0 | hpos
  · subst h0
    simp [uncertainty]
  · have hL : (L : ℚ) ≠ 0 := Nat.cast_ne_zero.mpr hpos.ne'
    exact (uncertainty_eq_zero_iff hL fun _ => v).mpr fun _ _ => rfl

lemma uncertainty_results_length {L N C : ℕ}
    (M : Fin L → Fin N → Fin C → ℚ) :
    (uncertainty_results M).length = N := by
  simp [uncertainty_results]

/-- `uncertainty` written with the spec's `(1/L) *` factors instead of
the source's `/ L` divisions. -/
lemma uncertainty_eq_specFormula {L C : ℕ} (p : Fin L → Fin C → ℚ) :
    uncertainty p
      = (1 / L) * ∑ l, ∑ c, p l c ^ 2
        - ∑ c, ((1 / L) * ∑ l, p l c) ^ 2 := by
  unfold uncertainty
  rw [Finset.sum_congr rfl fun c _ =>
    (by ring : ((∑ l, p l c) / (L : ℚ)) ^ 2 = ((1 / L) * ∑ l, p l c) ^ 2)]
  ring

/-- Claim C1: for every image `i`, entry `i` of the score sequence equals
the closed-form dispersion formula — the mean over the L passes of the
squared L2 norm of image `i`'s class-probability vector, minus the
squared L2 norm of the mean of those L vectors — applied to the (L, C)
slice of the prediction tensor at image `i`. -/
theorem uncertainty_results_eq_dispersion {L N C : ℕ}
    (M : Fin L → Fin N → Fin C → ℚ) (i : Fin N) :
    (uncertainty_results M).get
        (Fin.cast (uncertainty_results_length M).symm i)
      = (1 / L) * ∑ l, ∑ c, M l i c ^ 2
        - ∑ c, ((1 / L) * ∑ l, M l i c) ^ 2 := by
  have h : (uncertainty_results M).get
      (Fin.cast (uncertainty_results_length M).symm i)
      = uncertainty fun l => M l i := by
    simp [uncertainty_results]
  rw [h, uncertainty_eq_specFormula]

/-- Claim C4: the reduction is a symmetric function of the L passes —
permuting the rows of the (L, C) matrix leaves the score unchanged. -/
theorem uncertainty_perm_invariant {L C : ℕ} (σ : Equiv.Perm (Fin L))
    (P : Fin L → Fin C → ℚ) :
    uncertainty (fun l => P (σ l)) = uncertainty P := by
  unfold uncertainty
  rw [Equiv.sum_comp σ fun l => ∑ c, P l c ^ 2]
  congr 1
  exact Finset.sum_congr rfl fun c _ => by
    rw [Equiv.sum_comp σ fun l => P l c]

/-- Claim C5: on the two opposite one-hot vectors over two classes the
score is exactly 1/2, and on 100 identical one-hot vectors over ten
classes it is exactly 0. -/
theorem uncertainty_concrete_values :
    uncertainty (L := 2) (C := 2) ![![1, 0], ![0, 1]] = 1 / 2 ∧
    uncertainty (L := 100) (C := 10)
      (fun _ c => if c = 0 then 1 else 0) = 0 := by
  constructor
  · norm_num [uncertainty, Fin.sum_univ_two]
  · exact uncertainty_const fun c => if c = 0 then 1 else 0

/-- Claim C9: applied to a single prediction vector (L = 1), the
dispersion measure is exactly zero for every image. -/
theorem uncertainty_single_pass {C : ℕ} (P : Fin 1 → Fin C → ℚ) :
    uncertainty P = 0 := by
  unfold uncertainty
  simp

/-- The two opposite one-hot prediction vectors over two classes. -/
def onehotPair : Fin 2 → Fin 2 → ℚ := ![![1, 0], ![0, 1]]

/-- Claim C2: for L ≥ 2 class-probability vectors the score is
non-negative, vanishes exactly when all L vectors are identical, and
equals the sum over classes of the population variance of that class's
probability across the L passes. -/
theorem uncertainty_variance_properties {L C : ℕ} (h : 2 ≤ L)
    (P : Fin L → Fin C → ℚ)
    (hnn : ∀ l c, 0 ≤ P l c) (hsum : ∀ l, ∑ c, P l c = 1) :
    0 ≤ uncertainty P ∧
    (uncertainty P = 0 ↔ ∀ l m : Fin L, P l = P m) ∧
    uncertainty P = ∑ c, (∑ l, (P l c - (∑ j, P j c) / L) ^ 2) / L := by
  have hL : (L : ℚ) ≠ 0 := Nat.cast_ne_zero.mpr (by omega)
  exact ⟨uncertainty_nonneg hL P, uncertainty_eq_zero_iff hL P,
    uncertainty_eq_sum_colVar hL P⟩

/-- Witness for claim C2 at the concrete input `onehotPair`. -/
theorem uncertainty_variance_properties_witness :
    0 ≤ uncertainty onehotPair ∧
    (uncertainty onehotPair = 0 ↔
      ∀ l m : Fin 2, onehotPair l = onehotPair m) ∧
    uncertainty onehotPair
      = ∑ c, (∑ l, (onehotPair l c
          - (∑ j, onehotPair j c) / ((2 : ℕ) : ℚ)) ^ 2) / ((2 : ℕ) : ℚ) :=
  uncertainty_variance_properties (by norm_num) onehotPair
    (by intro l c; fin_cases l <;> fin_cases c <;> norm_num [onehotPair])
    (by intro l; fin_cases l <;> norm_num [onehotPair, Fin.sum_univ_two])

/-- Two hand-built (L = 2, C = 2) samples whose per-pass class rankings
agree everywhere but whose probability magnitudes differ. -/
def rankedSampleA : Fin 2 → Fin 2 → ℚ := ![![9/10, 1/10], ![8/10, 2/10]]

/-- Companion sample to `rankedSampleA` with the same rankings. -/
def rankedSampleB : Fin 2 → Fin 2 → ℚ := ![![6/10, 4/10], ![55/100, 45/100]]

/-- Claim C6: scale invariance does not hold — the two samples rank the
classes identically on every pass yet get different scores. -/
theorem uncertainty_not_scale_invariant :
    (∀ l c d : Fin 2, (rankedSampleA l c < rankedSampleA l d ↔
        rankedSampleB l c < rankedSampleB l d)) ∧
    uncertainty rankedSampleA ≠ uncertainty rankedSampleB := by
  constructor
  · intro l c d
    fin_cases l <;> fin_cases c <;> fin_cases d <;>
      norm_num [rankedSampleA, rankedSampleB]
  · norm_num [uncertainty, rankedSampleA, rankedSampleB, Fin.sum_univ_two]

/-- Claim C3 counterexample: with L = 1 the cell-20 loop performs one
stochastic-predictor invocation per batch (not zero) and a full score
sequence of length N = 1 is produced; with an empty batch (N = 0) and
L = 2 the loop still performs two predictor invocations. The notebook
contains no validation of L or N and raises no error. -/
theorem degenerate_inputs_not_rejected :
    numPredictCalls 1 ≠ 0 ∧
    (uncertainty_results
      (predictions_matrix 1 (N := 1) (C := 1) fun _ _ _ => 1)).length = 1 ∧
    numPredictCalls 2 ≠ 0 ∧
    (uncertainty_results
      (predictions_matrix 2 (N := 0) (C := 1) fun _ _ _ => 1)).length = 0 := by
  refine ⟨by simp [numPredictCalls], ?_, by simp [numPredictCalls], ?_⟩ <;>
    simp [uncertainty_results]

/-- Claim C3 amended: the notebook performs no degenerate-input
validation: for every L and N (including L = 1 and N = 0) the sampling
loop performs exactly L stochastic-predictor invocations per batch and
the estimator produces a full N-length score sequence; no error is
raised and no model invocation is skipped. -/
theorem sampling_loop_unconditional (L N C : ℕ)
    (predict : ℕ → Fin N → Fin C → ℚ) :
    numPredictCalls L = L ∧
    (uncertainty_results (predictions_matrix L predict)).length = N :=
  ⟨List.length_range L, uncertainty_results_length _⟩

/-- Claim C7: `num_images` is re-read from the adversarial generator's
actual output count; the clean batch is re-sliced to that count, and the
two score sequences both have exactly that length. -/
theorem recount_after_adversarial_generation {α : Type}
    (test_images x_images_adv : List α)
    (h : x_images_adv.length ≤ test_images.length)
    {L C : ℕ}
    (M A : Fin L → Fin (num_images x_images_adv) → Fin C → ℚ) :
    num_images x_images_adv = x_images_adv.length ∧
    (x_images test_images x_images_adv).length = x_images_adv.length ∧
    (uncertainty_results M).length = num_images x_images_adv ∧
    (uncertainty_results A).length = num_images x_images_adv := by
  refine ⟨rfl, ?_, uncertainty_results_length M, uncertainty_results_length A⟩
  simp [x_images, num_images, Nat.min_eq_left h]

/-- Witness for claim C7: three test images, an adversarial batch of two
(fewer than requested), and constant prediction tensors. -/
theorem recount_after_adversarial_generation_witness :
    num_images ([7, 9] : List ℕ) = ([7, 9] : List ℕ).length ∧
    (x_images ([0, 1, 2] : List ℕ) [7, 9]).length
      = ([7, 9] : List ℕ).length ∧
    (uncertainty_results fun _ : Fin 1 =>
      fun _ : Fin (num_images ([7, 9] : List ℕ)) =>
        fun _ : Fin 1 => (1 : ℚ)).length = num_images ([7, 9] : List ℕ) ∧
    (uncertainty_results fun _ : Fin 1 =>
      fun _ : Fin (num_images ([7, 9] : List ℕ)) =>
        fun _ : Fin 1 => (1 : ℚ)).length = num_images ([7, 9] : List ℕ) :=
  recount_after_adversarial_generation [0, 1, 2] [7, 9] (by simp)
    (fun _ _ _ => 1) (fun _ _ _ => 1)

/-- Claim C10: for class-probability inputs the score is at most
1 − 1/C (and hence at most 1): the mean squared norm of probability
vectors is at most 1 and the squared norm of their mean is at least
1/C. -/
theorem uncertainty_upper_bound {L C : ℕ} (hL : 1 ≤ L) (hC : 1 ≤ C)
    (P : Fin L → Fin C → ℚ)
    (hnn : ∀ l c, 0 ≤ P l c) (hsum : ∀ l, ∑ c, P l c = 1) :
    uncertainty P ≤ 1 - 1 / C ∧ uncertainty P ≤ 1 := by
  have hLQ : (0 : ℚ) < L := by exact_mod_cast Nat.lt_of_lt_of_le Nat.zero_lt_one hL
  have hCQ : (0 : ℚ) < C := by exact_mod_cast Nat.lt_of_lt_of_le Nat.zero_lt_one hC
  have hrow : ∀ l, ∑ c, P l c ^ 2 ≤ 1 := by
    intro l
    have hle1 : ∀ c, P l c ≤ 1 := by
      intro c
      calc P l c ≤ ∑ d, P l d :=
        Finset.single_le_sum (fun d _ => hnn l d) (Finset.mem_univ c)
      _ = 1 := hsum l
    calc ∑ c, P l c ^ 2 ≤ ∑ c, P l c :=
        Finset.sum_le_sum fun c _ => by nlinarith [hnn l c, hle1 c]
    _ = 1 := hsum l
  have hA : (∑ l, ∑ c, P l c ^ 2) / L ≤ 1 := by
    rw [div_le_one hLQ]
    calc ∑ l, ∑ c, P l c ^ 2 ≤ ∑ _l : Fin L, (1 : ℚ) :=
        Finset.sum_le_sum fun l _ => hrow l
    _ = L := by simp
  have hmsum : ∑ c, (∑ l, P l c) / (L : ℚ) = 1 := by
    rw [← Finset.sum_div, Finset.sum_comm,
      Finset.sum_congr rfl fun l _ => hsum l]
    simp
    exact div_self hLQ.ne'
  have h1 : (0 : ℚ) ≤ (∑ c, ((∑ l, P l c) / L) ^ 2) / C
      - ((∑ c, (∑ l, P l c) / (L : ℚ)) / C) ^ 2 := by
    rw [sum_sq_div_sub_sq_mean hCQ.ne' fun c => (∑ l, P l c) / L]
    exact div_nonneg (Finset.sum_nonneg fun c _ => sq_nonneg _) hCQ.le
  rw [hmsum] at h1
  have hB : 1 / (C : ℚ) ≤ ∑ c, ((∑ l, P l c) / L) ^ 2 := by
    have h2 : ((1 : ℚ) / C) ^ 2 ≤ (∑ c, ((∑ l, P l c) / L) ^ 2) / C := by
      nlinarith [h1]
    calc (1 : ℚ) / C = C * ((1 / C) ^ 2) := by field_simp; ring
    _ ≤ C * ((∑ c, ((∑ l, P l c) / L) ^ 2) / C) :=
        mul_le_mul_of_nonneg_left h2 hCQ.le
    _ = ∑ c, ((∑ l, P l c) / L) ^ 2 := by field_simp
  have hBnn : (0 : ℚ) ≤ ∑ c, ((∑ l, P l c) / L) ^ 2 :=
    Finset.sum_nonneg fun c _ => sq_nonneg _
  unfold uncertainty
  constructor
  · linarith
  · have hCinv : (0 : ℚ) ≤ 1 / C := by positivity
    linarith

/-- The single uniform prediction vector over two classes. -/
def uniformRow : Fin 1 → Fin 2 → ℚ := ![![1/2, 1/2]]

/-- Witness for claim C10 at the concrete input `uniformRow`. -/
theorem uncertainty_upper_bound_witness :
    uncertainty uniformRow ≤ 1 - 1 / ((2 : ℕ) : ℚ) ∧
    uncertainty uniformRow ≤ 1 :=
  uncertainty_upper_bound (by norm_num) (by norm_num) uniformRow
    (by intro l c; fin_cases l <;> fin_cases c <;> norm_num [uniformRow])
    (by intro l; fin_cases l <;> norm_num [uniformRow, Fin.sum_univ_two])
